import Mathlib

/-!
Verification of the deck-of-cards interaction engine
(`src/deck_of_cards/app.py` of TomJGooding/deck-of-cards).

The embedding models the `Draggable` mouse handlers, the `Card` flip
behaviour, and the `DeckOfCardsApp` deck/layer/shuffle logic as pure
state-transition functions.  Screen offsets are pairs of integers
(Textual's `Offset`); a card's style `layer` string `"z-index-k"` is
modelled by the integer `k`; the screen's published `layers` tuple is
modelled by the list of those integers.
-/

namespace DeckOfCards

/-- A 2-D screen offset, as in `textual.geometry.Offset` (integer pair,
componentwise arithmetic). -/
@[ext] structure Offset where
  x : Int
  y : Int
deriving DecidableEq, Repr

instance : Add Offset := ⟨fun a b => ⟨a.x + b.x, a.y + b.y⟩⟩
instance : Sub Offset := ⟨fun a b => ⟨a.x - b.x, a.y - b.y⟩⟩

theorem Offset.add_def (a b : Offset) : a + b = ⟨a.x + b.x, a.y + b.y⟩ := rfl

theorem Offset.sub_def (a b : Offset) : a - b = ⟨a.x - b.x, a.y - b.y⟩ := rfl

/-- The deck origin `(0, 0)`. -/
def origin : Offset := ⟨0, 0⟩

/-- `CardSuit` enum of `app.py` (values 1..4 in declaration order). -/
inductive CardSuit where
  | diamonds
  | clubs
  | hearts
  | spades
deriving DecidableEq, Repr

/-- The `Enum` integer value of a suit (`DIAMONDS = 1`, `CLUBS = 2`,
`HEARTS = 3`, `SPADES = 4`). -/
def CardSuit.val : CardSuit → Nat
  | .diamonds => 1
  | .clubs => 2
  | .hearts => 3
  | .spades => 4

/-- Iteration order of `for suit in CardSuit` (enum declaration order). -/
def CardSuit.all : List CardSuit := [.diamonds, .clubs, .hearts, .spades]

/-- `CardRank` enum of `app.py` (values 1..13 in declaration order). -/
inductive CardRank where
  | ace
  | deuce
  | three
  | four
  | five
  | six
  | seven
  | eight
  | nine
  | ten
  | jack
  | queen
  | king
deriving DecidableEq, Repr

/-- The `Enum` integer value of a rank (`ACE = 1` .. `KING = 13`). -/
def CardRank.val : CardRank → Nat
  | .ace => 1
  | .deuce => 2
  | .three => 3
  | .four => 4
  | .five => 5
  | .six => 6
  | .seven => 7
  | .eight => 8
  | .nine => 9
  | .ten => 10
  | .jack => 11
  | .queen => 12
  | .king => 13

/-- Iteration order of `CardRank` (enum declaration order, ACE..KING). -/
def CardRank.all : List CardRank :=
  [.ace, .deuce, .three, .four, .five, .six, .seven, .eight, .nine, .ten,
   .jack, .queen, .king]

/-- The mutable state of one `Card` widget: its identity (`suit`, `rank`),
flip state `face_up`, its style offset, its style layer (the `k` of
`"z-index-k"`), and the `Draggable` reactive fields `mouse_at_drag_start`,
`offset_at_drag_start` and `dragged`. -/
structure CardState where
  suit : CardSuit
  rank : CardRank
  face_up : Bool
  offset : Offset
  layer : Nat
  mouse_at_drag_start : Option Offset
  offset_at_drag_start : Option Offset
  dragged : Bool
deriving DecidableEq, Repr

/-- `Card.__init__`: a freshly constructed card is face down at the origin
with the `Draggable` reactives at their `var` defaults (`None`, `None`,
`False`); its layer is assigned later by `compose`. -/
def mkCard (s : CardSuit) (r : CardRank) : CardState :=
  { suit := s
    rank := r
    face_up := false
    offset := origin
    layer := 0
    mouse_at_drag_start := none
    offset_at_drag_start := none
    dragged := false }

/-- `Draggable.on_mouse_down` (the card-local part): reset `dragged`,
record the mouse position and the current offset as the drag-start data.
(The posted `Grabbed` message is handled by the app, see `grabCard`;
`capture_mouse` is the input subsystem's exclusive capture.) -/
def on_mouse_down (pos : Offset) (c : CardState) : CardState :=
  { c with
    dragged := false
    mouse_at_drag_start := some pos
    offset_at_drag_start := some c.offset }

/-- `Draggable.on_mouse_move`: only when both drag-start fields are set,
mark `dragged` and recompute the offset by the absolute formula
`offset_at_drag_start + event.screen_offset - mouse_at_drag_start`. -/
def on_mouse_move (pos : Offset) (c : CardState) : CardState :=
  match c.mouse_at_drag_start, c.offset_at_drag_start with
  | some m, some o => { c with dragged := true, offset := o + pos - m }
  | some _, none => c
  | none, some _ => c
  | none, none => c

/-- `Draggable.on_mouse_up`: clear both drag-start fields (release of the
mouse capture and `event.stop()` have no card-local state effect). -/
def on_mouse_up (c : CardState) : CardState :=
  { c with
    mouse_at_drag_start := none
    offset_at_drag_start := none }

/-- `Card.on_click`: toggle `face_up` unless the gesture was a drag. -/
def on_click (c : CardState) : CardState :=
  if !c.dragged then { c with face_up := !c.face_up } else c

/-- A pointer event delivered to one card.  `up` covers the Textual
`MouseUp` together with the `Click` event the framework synthesises right
after a `MouseUp` that matches the card's `MouseDown`. -/
inductive MouseEvent where
  | down (pos : Offset)
  | move (pos : Offset)
  | up
deriving DecidableEq, Repr

/-- One event step on a card: `down` runs `on_mouse_down`, `move` runs
`on_mouse_move`, `up` runs `on_mouse_up` and then the synthesised click
handler `on_click`. -/
def stepEvent (c : CardState) : MouseEvent → CardState
  | .down pos => on_mouse_down pos c
  | .move pos => on_mouse_move pos c
  | .up => on_click (on_mouse_up c)

/-- Process a sequence of pointer events on one card. -/
def runEvents (es : List MouseEvent) (c : CardState) : CardState :=
  es.foldl stepEvent c

theorem on_mouse_move_of_some (pos m o : Offset) (c : CardState)
    (hm : c.mouse_at_drag_start = some m)
    (ho : c.offset_at_drag_start = some o) :
    on_mouse_move pos c = { c with dragged := true, offset := o + pos - m } := by
  simp [on_mouse_move, hm, ho]

/-- During an open drag session (both drag-start fields set to `m` and `o`),
folding any move sequence whose last position is `pLast` yields exactly the
state with `dragged = true` and `offset = o + pLast - m`; nothing else
changes. -/
theorem dragMoves (m o : Offset) :
    ∀ (ps : List Offset) (c : CardState) (pLast : Offset),
      c.mouse_at_drag_start = some m →
      c.offset_at_drag_start = some o →
      ps.getLast? = some pLast →
      ps.foldl (fun s p => on_mouse_move p s) c =
        { c with dragged := true, offset := o + pLast - m } := by
  intro ps
  induction ps with
  | nil => intro c pLast _ _ hlast; simp at hlast
  | cons p ps ih =>
    intro c pLast hm ho hlast
    have hstep : on_mouse_move p c =
        { c with dragged := true, offset := o + p - m } :=
      on_mouse_move_of_some p m o c hm ho
    cases ps with
    | nil =>
      simp at hlast
      subst hlast
      simp [List.foldl, hstep]
    | cons q qs =>
      have hlast' : (q :: qs).getLast? = some pLast := by
        simpa [List.getLast?_cons_cons] using hlast
      have hres := ih { c with dragged := true, offset := o + p - m }
        pLast (by simp [hm]) (by simp [ho]) hlast'
      rw [List.foldl_cons, hstep, hres]

/-- C5: For every drag session started by `MouseDown` at mouse position `m`
on a card whose offset is `o0`, after every subsequent `MouseMove` (here:
after the move at `p`, with any earlier moves `ps` before it) the card's
offset equals `o0 + (p - m)`, recomputed by the absolute formula each
time. -/
theorem C5_absolute_offset (c : CardState) (m : Offset) (ps : List Offset)
    (p : Offset) :
    ((ps ++ [p]).foldl (fun s q => on_mouse_move q s)
        (on_mouse_down m c)).offset = c.offset + (p - m) := by
  have hlast : (ps ++ [p]).getLast? = some p := by
    simp [List.getLast?_concat]
  have h := dragMoves m c.offset (ps ++ [p]) (on_mouse_down m c) p
    (by simp [on_mouse_down]) (by simp [on_mouse_down]) hlast
  rw [h]
  ext <;> simp [Offset.add_def, Offset.sub_def] <;> ring

theorem exists_getLast?_of_ne_nil {α : Type} :
    ∀ (l : List α), l ≠ [] → ∃ a, l.getLast? = some a := by
  intro l
  induction l with
  | nil => intro h; exact absurd rfl h
  | cons p ps ih =>
    intro _
    cases ps with
    | nil => exact ⟨p, rfl⟩
    | cons q qs =>
      obtain ⟨a, ha⟩ := ih (by simp)
      exact ⟨a, by simpa [List.getLast?_cons_cons] using ha⟩

/-- C2: `MouseDown` immediately followed by `MouseUp` (a true click)
toggles `face_up` exactly once; `MouseDown` followed by one or more
`MouseMove`s and then `MouseUp` (a drag) leaves `face_up` unchanged. -/
theorem C2_click_vs_drag (c : CardState) (m : Offset) (ps : List Offset)
    (hps : ps ≠ []) :
    (runEvents [.down m, .up] c).face_up = !c.face_up ∧
    (runEvents (.down m :: (ps.map .move ++ [.up])) c).face_up =
      c.face_up := by
  constructor
  · simp [runEvents, List.foldl, stepEvent, on_mouse_down, on_mouse_up,
      on_click]
  · obtain ⟨pLast, hq⟩ := exists_getLast?_of_ne_nil ps hps
    have hfold := dragMoves m c.offset ps (on_mouse_down m c)
      pLast (by simp [on_mouse_down]) (by simp [on_mouse_down]) hq
    have hmoves : ∀ (rs : List Offset) (d : CardState),
        (rs.map MouseEvent.move).foldl stepEvent d =
          rs.foldl (fun s p => on_mouse_move p s) d := by
      intro rs
      induction rs with
      | nil => intro d; simp [List.foldl]
      | cons r rs ih => intro d; simp [List.foldl, stepEvent, ih]
    simp only [runEvents, List.foldl_cons, List.foldl_append]
    rw [show stepEvent c (.down m) = on_mouse_down m c from rfl, hmoves,
      hfold]
    simp [List.foldl, stepEvent, on_mouse_up, on_click, on_mouse_down]

/-- Witness for C2 at a concrete card, click position and one-move drag. -/
theorem C2_witness :
    [Offset.mk 3 4] ≠ [] ∧
    ((runEvents [.down ⟨1, 2⟩, .up] (mkCard .hearts .ace)).face_up =
        !(mkCard .hearts .ace).face_up ∧
      (runEvents (.down ⟨1, 2⟩ ::
          ([Offset.mk 3 4].map .move ++ [.up]))
          (mkCard .hearts .ace)).face_up = (mkCard .hearts .ace).face_up) :=
  ⟨by decide, C2_click_vs_drag (mkCard .hearts .ace) ⟨1, 2⟩ _ (by decide)⟩

/-- C8: with no active press (both drag-start fields `None`, which is the
state in which a card holds no mouse capture), a stray `MouseMove` and a
stray `MouseUp` leave the whole card state unchanged.  (Textual only
synthesises a `Click` for a `MouseUp` matching a `MouseDown` on the same
widget, so a capture-less `MouseUp` runs `on_mouse_up` alone.) -/
theorem C8_out_of_sequence (c : CardState) (p : Offset)
    (hm : c.mouse_at_drag_start = none)
    (ho : c.offset_at_drag_start = none) :
    on_mouse_move p c = c ∧ on_mouse_up c = c := by
  constructor
  · simp [on_mouse_move, hm, ho]
  · cases c
    simp_all [on_mouse_up]

/-- Witness for C8 at a concrete idle card and position. -/
theorem C8_witness :
    on_mouse_move ⟨5, 6⟩ (mkCard .spades .king) = mkCard .spades .king ∧
    on_mouse_up (mkCard .spades .king) = mkCard .spades .king :=
  C8_out_of_sequence (mkCard .spades .king) ⟨5, 6⟩ rfl rfl

/-- `DeckOfCardsApp.init_deck`: `for suit in CardSuit: for rank in
list(reversed(CardRank)): cards.append(Card(suit, rank))` — suit outer loop
in enum order, rank inner loop in reversed (descending) enum order. -/
def init_deck : List CardState :=
  CardSuit.all.flatMap fun s => CardRank.all.reverse.map fun r => mkCard s r

/-- `DeckOfCardsApp.compose`: walk the deck in order, assigning
`card.styles.layer = "z-index-{z_index}"` with `z_index` counting up from
1. -/
def compose (cards : List CardState) : List CardState :=
  List.zipWith (fun c i => { c with layer := i }) cards
    (List.range' 1 cards.length)

/-- The state of `DeckOfCardsApp`: the deck (owned list of cards), the
screen's published `layers` tuple (modelled by the `k` of each
`"z-index-k"` entry), and the reactive `fresh_deck`. -/
structure AppState where
  cards : List CardState
  screenLayers : List Nat
  fresh_deck : Bool
deriving DecidableEq, Repr

/-- The app right after `__init__` (`self.cards = self.init_deck()`),
`on_mount` (`layers = z-index-1 .. z-index-52`) and `compose`;
`fresh_deck` starts at its `var` default `True`. -/
def initApp : AppState :=
  { cards := compose init_deck
    screenLayers := List.range' 1 52
    fresh_deck := true }

/-- Apply `f` to the element at position `i`, leaving the rest alone. -/
def updateAt (f : CardState → CardState) : Nat → List CardState → List CardState
  | _, [] => []
  | 0, c :: rest => f c :: rest
  | n + 1, c :: rest => c :: updateAt f n rest

/-- A grab of card `i` at mouse position `m`: `Draggable.on_mouse_down`
runs on the card (posting `Grabbed`), then `DeckOfCardsApp.on_card_grabbed`
sets `fresh_deck = False`, appends `z-index-{len(current_layers)+1}` to the
screen's layers and assigns it to the grabbed card. -/
def grabCard (m : Offset) (i : Nat) (s : AppState) : AppState :=
  let k := s.screenLayers.length
  { cards := updateAt (fun c => { on_mouse_down m c with layer := k + 1 }) i
      s.cards
    screenLayers := s.screenLayers ++ [k + 1]
    fresh_deck := false }

/-- Modelled from the spec: the animation subsystem is an external
collaborator (`card.styles.animate` / `self.animator` of Textual, not in
this repository).  Per §6 it "accepts `(targetOffset, duration)` per card
and returns an awaitable completion signal"; a completed animation leaves
the card's offset at the target.  `_return_cards_to_deck` requests, for
every card, an animation of its offset to `(0, 0)`; after
`await self.animator.wait_until_complete()` every offset is the origin. -/
def returnCardsToDeck (cards : List CardState) : List CardState :=
  cards.map fun c => { c with offset := origin }

/-- The `for card in self.cards` loop of `action_shuffle`: each card is set
face down and takes `z_indexes.pop()` — the LAST element of the remaining
pool — as its new layer.  `pop()` on an empty list raises, hence `none`. -/
def shuffleLoop : List CardState → List Nat → Option (List CardState)
  | [], _ => some []
  | c :: rest, zs =>
    match zs.getLast? with
    | none => none
    | some z =>
      (shuffleLoop rest zs.dropLast).map
        fun cs => { c with face_up := false, layer := z } :: cs

/-- `DeckOfCardsApp.action_shuffle`, parameterised by `zs`, the result of
`random.shuffle` on `list(range(1, 53))` (an arbitrary permutation of
1..52).  If the deck is not fresh, the cards are first animated home
(`returnCardsToDeck`, awaited); then every card is set face down and takes
a popped layer, the screen's layers are reset to `z-index-1 ..
z-index-52`, and `fresh_deck` becomes `True`. -/
def action_shuffle (zs : List Nat) (s : AppState) : Option AppState :=
  let cards0 := if s.fresh_deck then s.cards else returnCardsToDeck s.cards
  (shuffleLoop cards0 zs).map fun cs =>
    { cards := cs
      screenLayers := List.range' 1 52
      fresh_deck := true }

theorem length_updateAt (f : CardState → CardState) :
    ∀ (i : Nat) (l : List CardState), (updateAt f i l).length = l.length := by
  intro i l
  induction l generalizing i with
  | nil => cases i <;> rfl
  | cons c rest ih =>
    cases i with
    | zero => rfl
    | succ n => simp [updateAt, ih]

theorem updateAt_get_eq (f : CardState → CardState) :
    ∀ (i : Nat) (l : List CardState) (hi : i < l.length)
      (h : i < (updateAt f i l).length),
      (updateAt f i l).get ⟨i, h⟩ = f (l.get ⟨i, hi⟩) := by
  intro i l
  induction l generalizing i with
  | nil => intro hi; simp at hi
  | cons c rest ih =>
    intro hi h
    cases i with
    | zero => rfl
    | succ n =>
      simp only [updateAt, List.get_cons_succ]
      exact ih n (by simpa using hi) _

theorem updateAt_get_ne (f : CardState → CardState) :
    ∀ (i j : Nat) (l : List CardState) (hj : j < l.length)
      (h : j < (updateAt f i l).length), j ≠ i →
      (updateAt f i l).get ⟨j, h⟩ = l.get ⟨j, hj⟩ := by
  intro i j l
  induction l generalizing i j with
  | nil => intro hj; simp at hj
  | cons c rest ih =>
    intro hj h hne
    cases i with
    | zero =>
      cases j with
      | zero => exact absurd rfl hne
      | succ p => rfl
    | succ n =>
      cases j with
      | zero => rfl
      | succ p =>
        simp only [updateAt, List.get_cons_succ]
        exact ih n p (by simpa using hj) _ (by omega)

/-- C10: a grab of card `i` (its `on_mouse_down` plus the app's
`on_card_grabbed`) leaves the card's `offset` and `face_up` unchanged:
on the grabbed card it mutates only `dragged`, the two drag-start fields
and the layer, and it leaves every other card untouched. -/
theorem C10_grab_frame (s : AppState) (m : Offset) (i : Nat)
    (hi : i < s.cards.length) :
    ∃ h : i < (grabCard m i s).cards.length,
      (grabCard m i s).cards.get ⟨i, h⟩ =
        { s.cards.get ⟨i, hi⟩ with
            dragged := false
            mouse_at_drag_start := some m
            offset_at_drag_start := some (s.cards.get ⟨i, hi⟩).offset
            layer := s.screenLayers.length + 1 } ∧
      ((grabCard m i s).cards.get ⟨i, h⟩).offset =
        (s.cards.get ⟨i, hi⟩).offset ∧
      ((grabCard m i s).cards.get ⟨i, h⟩).face_up =
        (s.cards.get ⟨i, hi⟩).face_up ∧
      ∀ j (hj : j < s.cards.length) (h2 : j < (grabCard m i s).cards.length),
        j ≠ i → (grabCard m i s).cards.get ⟨j, h2⟩ = s.cards.get ⟨j, hj⟩ := by
  have hlen : (grabCard m i s).cards.length = s.cards.length := by
    simp [grabCard, length_updateAt]
  refine ⟨by omega, ?_, ?_, ?_, ?_⟩
  · have := updateAt_get_eq
      (fun c => { on_mouse_down m c with layer := s.screenLayers.length + 1 })
      i s.cards hi (by rw [length_updateAt]; exact hi)
    simp only [grabCard] at this ⊢
    rw [this]
    simp [on_mouse_down]
  · have := updateAt_get_eq
      (fun c => { on_mouse_down m c with layer := s.screenLayers.length + 1 })
      i s.cards hi (by rw [length_updateAt]; exact hi)
    simp only [grabCard] at this ⊢
    rw [this]
    simp [on_mouse_down]
  · have := updateAt_get_eq
      (fun c => { on_mouse_down m c with layer := s.screenLayers.length + 1 })
      i s.cards hi (by rw [length_updateAt]; exact hi)
    simp only [grabCard] at this ⊢
    rw [this]
    simp [on_mouse_down]
  · intro j hj h2 hne
    have := updateAt_get_ne
      (fun c => { on_mouse_down m c with layer := s.screenLayers.length + 1 })
      i j s.cards hj (by rw [length_updateAt]; exact hj) hne
    simpa [grabCard] using this

/-- Witness for C10 at the freshly composed app, grabbing card 0. -/
theorem C10_witness :
    ∃ h : 0 < (grabCard origin 0 initApp).cards.length,
      (grabCard origin 0 initApp).cards.get ⟨0, h⟩ =
        { initApp.cards.get ⟨0, by decide⟩ with
            dragged := false
            mouse_at_drag_start := some origin
            offset_at_drag_start :=
              some (initApp.cards.get ⟨0, by decide⟩).offset
            layer := initApp.screenLayers.length + 1 } ∧
      ((grabCard origin 0 initApp).cards.get ⟨0, h⟩).offset =
        (initApp.cards.get ⟨0, by decide⟩).offset ∧
      ((grabCard origin 0 initApp).cards.get ⟨0, h⟩).face_up =
        (initApp.cards.get ⟨0, by decide⟩).face_up ∧
      ∀ j (hj : j < initApp.cards.length)
        (h2 : j < (grabCard origin 0 initApp).cards.length),
        j ≠ 0 → (grabCard origin 0 initApp).cards.get ⟨j, h2⟩ =
          initApp.cards.get ⟨j, hj⟩ :=
  C10_grab_frame initApp origin 0 (by decide)

/-- C7: `init_deck` followed by `compose` yields exactly 52 cards, the
(suit, rank) pairs are pairwise distinct, layers are assigned ascending
1..52 in deck order, and the deck order is suit-outer (enum order,
values 1..4) with rank descending (KING value 13 down to ACE value 1)
within each suit. -/
theorem C7_deck_initialization :
    (compose init_deck).length = 52 ∧
    ((compose init_deck).map fun c => (c.suit, c.rank)).Nodup ∧
    ((compose init_deck).map fun c => c.layer) = List.range' 1 52 ∧
    (∀ i : Fin 52,
      ((compose init_deck).map fun c => c.suit.val)[(i : Nat)]? =
        some ((i : Nat) / 13 + 1) ∧
      ((compose init_deck).map fun c => c.rank.val)[(i : Nat)]? =
        some (13 - (i : Nat) % 13)) := by
  decide

/-- The shuffle update one card receives in the `for` loop. -/
def shuffleUpd (c : CardState) (z : Nat) : CardState :=
  { c with face_up := false, layer := z }

theorem shuffleLoop_eq_zipWith :
    ∀ (cards : List CardState) (zs : List Nat),
      cards.length ≤ zs.length →
      shuffleLoop cards zs = some (List.zipWith shuffleUpd cards zs.reverse) := by
  intro cards
  induction cards with
  | nil => intro zs _; simp [shuffleLoop]
  | cons c rest ih =>
    intro zs hlen
    rcases List.eq_nil_or_concat zs with hnil | ⟨ys, z, hcat⟩
    · subst hnil; simp at hlen
    · rw [List.concat_eq_append] at hcat
      subst hcat
      have hrest : rest.length ≤ ys.length := by
        simp at hlen; omega
      simp only [shuffleLoop, List.getLast?_concat, List.dropLast_concat,
        ih ys hrest, Option.map_some, List.reverse_concat',
        List.zipWith_cons_cons]
      rfl

theorem map_layer_zipWith :
    ∀ (cards : List CardState) (zsl : List Nat),
      cards.length = zsl.length →
      (List.zipWith shuffleUpd cards zsl).map (fun c => c.layer) = zsl := by
  intro cards
  induction cards with
  | nil =>
    intro zsl h
    cases zsl with
    | nil => simp
    | cons z zl => simp at h
  | cons c rest ih =>
    intro zsl h
    cases zsl with
    | nil => simp at h
    | cons z zl =>
      simp only [List.zipWith_cons_cons, List.map_cons]
      exact congrArg (z :: ·) (ih zl (by simpa using h))

theorem face_down_zipWith :
    ∀ (cards : List CardState) (zsl : List Nat),
      ∀ c ∈ List.zipWith shuffleUpd cards zsl, c.face_up = false := by
  intro cards
  induction cards with
  | nil => intro zsl c hc; simp at hc
  | cons d rest ih =>
    intro zsl c hc
    cases zsl with
    | nil => simp at hc
    | cons z zl =>
      simp only [List.zipWith_cons_cons, List.mem_cons] at hc
      rcases hc with rfl | hc
      · rfl
      · exact ih zl c hc

/-- `action_shuffle` on a full 52-card deck with a 52-entry pool: it
succeeds, the cards' layers become the reversed pool (popped from the
end, one per card, without replacement), every card ends face down, the
published layers collapse to `z-index-1 .. z-index-52`, and the deck is
fresh again. -/
theorem action_shuffle_spec (s : AppState) (zs : List Nat)
    (h52 : s.cards.length = 52) (hlen : zs.length = 52) :
    ∃ s', action_shuffle zs s = some s' ∧
      s'.cards.map (fun c => c.layer) = zs.reverse ∧
      (∀ c ∈ s'.cards, c.face_up = false) ∧
      s'.screenLayers = List.range' 1 52 ∧
      s'.fresh_deck = true ∧
      s'.cards.length = 52 := by
  set cards0 := if s.fresh_deck then s.cards else returnCardsToDeck s.cards
    with hc0
  have hlen0 : cards0.length = 52 := by
    rw [hc0]
    cases s.fresh_deck <;> simp [returnCardsToDeck, h52]
  have hloop := shuffleLoop_eq_zipWith cards0 zs (by omega)
  refine ⟨{ cards := List.zipWith shuffleUpd cards0 zs.reverse
            screenLayers := List.range' 1 52
            fresh_deck := true }, ?_, ?_, ?_, rfl, rfl, ?_⟩
  · simp only [action_shuffle, ← hc0, hloop]
    rfl
  · exact map_layer_zipWith cards0 zs.reverse (by simp [hlen0, hlen])
  · exact face_down_zipWith cards0 zs.reverse
  · simp [List.length_zipWith, hlen0, hlen]

/-- C1: after any shuffle command on the app's (52-card) deck — `zs` being
the shuffled pool `random.shuffle(list(range(1, 53)))`, i.e. an arbitrary
permutation of 1..52 — the cards' layer ids are again a permutation of
1..52 (one popped per card, without replacement), every card is face down,
the published layer set is collapsed back to 52 entries, and `fresh_deck`
is `True`. -/
theorem C1_shuffle_permutation (s : AppState) (zs : List Nat)
    (h52 : s.cards.length = 52) (hzs : zs.Perm (List.range' 1 52)) :
    ∃ s', action_shuffle zs s = some s' ∧
      (s'.cards.map fun c => c.layer).Perm (List.range' 1 52) ∧
      (∀ c ∈ s'.cards, c.face_up = false) ∧
      s'.screenLayers = List.range' 1 52 ∧
      s'.fresh_deck = true := by
  have hlen : zs.length = 52 := by
    simpa [List.length_range'] using hzs.length_eq
  obtain ⟨s', hrun, hmap, hface, hlayers, hfresh, _⟩ :=
    action_shuffle_spec s zs h52 hlen
  exact ⟨s', hrun, by rw [hmap]; exact (List.reverse_perm zs).trans hzs,
    hface, hlayers, hfresh⟩

/-- Witness for C1: shuffling the freshly composed app with the identity
pool. -/
theorem C1_witness :
    ∃ s', action_shuffle (List.range' 1 52) initApp = some s' ∧
      (s'.cards.map fun c => c.layer).Perm (List.range' 1 52) ∧
      (∀ c ∈ s'.cards, c.face_up = false) ∧
      s'.screenLayers = List.range' 1 52 ∧
      s'.fresh_deck = true :=
  C1_shuffle_permutation initApp (List.range' 1 52) (by decide)
    (List.Perm.refl _)

/-- A hypothetical single-card deck, initialised the way the app
initialises its deck (`compose` assigns layer 1) with the screen layers
from `on_mount`. -/
def singleCardApp : AppState :=
  { cards := compose [mkCard .hearts .seven]
    screenLayers := List.range' 1 52
    fresh_deck := true }

/-- A permutation of 1..52 (a possible result of `random.shuffle` on
`list(range(1, 53))`) whose last element is 51. -/
def poolEnding51 : List Nat := 52 :: List.range' 1 51

/-- Counterexample to C9: on a single-card deck the shuffle command is NOT
a no-op on card state, because the popped pool is hardcoded to 1..52
(`range(1, 53)`) irrespective of the deck size: with pool `poolEnding51`
the lone card's layer changes from 1 to 51. -/
theorem C9_counterexample :
    singleCardApp.fresh_deck = true ∧
    singleCardApp.cards.length = 1 ∧
    poolEnding51.Perm (List.range' 1 52) ∧
    singleCardApp.cards.map (fun c => c.layer) = [1] ∧
    (action_shuffle poolEnding51 singleCardApp).map
      (fun t => t.cards.map fun c => c.layer) = some [51] := by
  refine ⟨rfl, rfl, ?_, rfl, by decide⟩
  decide

/-- C9 as amended: shuffle on an empty deck is a no-op on card state that
completes and sets `fresh_deck = True`; on a single-card deck it completes,
sets `fresh_deck = True` and turns the card face down, but reassigns the
card's layer to the last element of the shuffled pool 1..52 (the pool size
is hardcoded, not the deck size), so the layer may change. -/
theorem C9_small_deck_shuffle (s : AppState) (zs : List Nat)
    (hzs : zs.length = 52) (hfresh : s.fresh_deck = true) :
    (s.cards = [] → action_shuffle zs s =
      some { cards := [], screenLayers := List.range' 1 52,
             fresh_deck := true }) ∧
    (∀ c, s.cards = [c] → ∃ z, zs.getLast? = some z ∧ z ∈ zs ∧
      action_shuffle zs s =
        some { cards := [{ c with face_up := false, layer := z }],
               screenLayers := List.range' 1 52, fresh_deck := true }) := by
  constructor
  · intro hnil
    simp [action_shuffle, hfresh, hnil, shuffleLoop]
  · intro c hone
    obtain ⟨z, hz⟩ := exists_getLast?_of_ne_nil zs (by intro h; simp [h] at hzs)
    refine ⟨z, hz, List.mem_of_mem_getLast? hz, ?_⟩
    simp [action_shuffle, hfresh, hone, shuffleLoop, hz]

/-- Witness for the amended C9 at the concrete single-card app. -/
theorem C9_witness :
    (singleCardApp.cards = [] →
      action_shuffle poolEnding51 singleCardApp =
        some { cards := [], screenLayers := List.range' 1 52,
               fresh_deck := true }) ∧
    (∀ c, singleCardApp.cards = [c] → ∃ z,
      poolEnding51.getLast? = some z ∧ z ∈ poolEnding51 ∧
      action_shuffle poolEnding51 singleCardApp =
        some { cards := [{ c with face_up := false, layer := z }],
               screenLayers := List.range' 1 52, fresh_deck := true }) :=
  C9_small_deck_shuffle singleCardApp poolEnding51 (by decide) rfl

/-- One observable application step: a grab of some card at some mouse
position, or a completed shuffle command with some shuffled pool. -/
inductive AppStep : AppState → AppState → Prop where
  | grab (m : Offset) (i : Nat) (s : AppState) : AppStep s (grabCard m i s)
  | shuffle (zs : List Nat) (s t : AppState) :
      zs.Perm (List.range' 1 52) → action_shuffle zs s = some t → AppStep s t

/-- States the application can reach from startup by any sequence of grabs
and shuffles. -/
def Reachable (s : AppState) : Prop :=
  Relation.ReflTransGen AppStep initApp s

/-- The layering invariant: the cards' layer ids are pairwise distinct,
every card's layer id is within the published layer set (at most its
size), and the deck has its 52 cards. -/
def LayerInv (s : AppState) : Prop :=
  (s.cards.map fun c => c.layer).Nodup ∧
  (∀ c ∈ s.cards, c.layer ≤ s.screenLayers.length) ∧
  s.cards.length = 52

theorem nodup_set (l : List Nat) (i v : Nat) (hnd : l.Nodup)
    (hv : v ∉ l) : (l.set i v).Nodup := by
  induction l generalizing i with
  | nil => simp
  | cons a t ih =>
    cases i with
    | zero =>
      simp only [List.set_cons_zero, List.nodup_cons]
      exact ⟨fun h => hv (List.mem_cons_of_mem a h),
        (List.nodup_cons.mp hnd).2⟩
    | succ n =>
      simp only [List.set_cons_succ, List.nodup_cons]
      refine ⟨fun h => ?_, ih n (List.nodup_cons.mp hnd).2
        (fun h => hv (List.mem_cons_of_mem a h))⟩
      rcases List.mem_or_eq_of_mem_set h with h' | rfl
      · exact (List.nodup_cons.mp hnd).1 h'
      · exact hv (List.mem_cons_self a t)

theorem mem_updateAt (f : CardState → CardState) :
    ∀ (i : Nat) (l : List CardState) (c : CardState),
      c ∈ updateAt f i l → c ∈ l ∨ ∃ d ∈ l, c = f d := by
  intro i l
  induction l generalizing i with
  | nil => intro c hc; cases i <;> simp [updateAt] at hc
  | cons a t ih =>
    intro c hc
    cases i with
    | zero =>
      rcases List.mem_cons.mp hc with rfl | hc
      · exact Or.inr ⟨a, List.mem_cons_self a t, rfl⟩
      · exact Or.inl (List.mem_cons_of_mem a hc)
    | succ n =>
      rcases List.mem_cons.mp hc with rfl | hc
      · exact Or.inl (List.mem_cons_self c t)
      · rcases ih n c hc with h | ⟨d, hd, rfl⟩
        · exact Or.inl (List.mem_cons_of_mem a h)
        · exact Or.inr ⟨d, List.mem_cons_of_mem a hd, rfl⟩

theorem map_layer_updateAt (f : CardState → CardState) (v : Nat)
    (hf : ∀ c, (f c).layer = v) :
    ∀ (i : Nat) (l : List CardState),
      (updateAt f i l).map (fun c => c.layer) =
        (l.map fun c => c.layer).set i v := by
  intro i l
  induction l generalizing i with
  | nil => cases i <;> rfl
  | cons a t ih =>
    cases i with
    | zero => simp [updateAt, hf]
    | succ n => simp [updateAt, ih]

theorem layerInv_grab (m : Offset) (i : Nat) (s : AppState)
    (h : LayerInv s) : LayerInv (grabCard m i s) := by
  obtain ⟨hnd, hbound, hlen⟩ := h
  set k := s.screenLayers.length with hk
  have hnotmem : (k + 1) ∉ s.cards.map fun c => c.layer := by
    intro hmem
    obtain ⟨c, hc, hceq⟩ := List.mem_map.mp hmem
    have := hbound c hc
    omega
  refine ⟨?_, ?_, ?_⟩
  · rw [grabCard]
    simp only
    rw [map_layer_updateAt _ (k + 1) (fun c => rfl)]
    exact nodup_set _ i (k + 1) hnd hnotmem
  · intro c hc
    have hlay : (grabCard m i s).screenLayers.length = k + 1 := by
      simp [grabCard]
    rw [hlay]
    rcases mem_updateAt _ i s.cards c hc with hmem | ⟨d, _, rfl⟩
    · exact Nat.le_succ_of_le (hbound c hmem)
    · simp
  · simp [grabCard, length_updateAt, hlen]

theorem layerInv_shuffle (zs : List Nat) (s t : AppState)
    (hperm : zs.Perm (List.range' 1 52))
    (hrun : action_shuffle zs s = some t) (h : LayerInv s) : LayerInv t := by
  obtain ⟨-, -, hlen⟩ := h
  have hzlen : zs.length = 52 := by
    simpa [List.length_range'] using hperm.length_eq
  obtain ⟨t', hrun', hmap, _, hlayers, _, htlen⟩ :=
    action_shuffle_spec s zs hlen hzlen
  rw [hrun'] at hrun
  injection hrun with hrun
  subst hrun
  refine ⟨?_, ?_, ?_⟩
  · rw [hmap, List.nodup_reverse]
    exact hperm.symm.nodup (List.nodup_range' 1 52)
  · intro c hc
    have hcl : c.layer ∈ zs.reverse := by
      rw [← hmap]
      exact List.mem_map_of_mem _ hc
    have : c.layer ∈ List.range' 1 52 :=
      hperm.mem_iff.mp (List.reverse_perm zs |>.mem_iff.mp hcl)
    have := List.mem_range'_1.mp this
    simp [hlayers, List.length_range']
    omega
  · exact htlen

theorem layerInv_init : LayerInv initApp := by
  refine ⟨?_, ?_, by decide⟩
  · have : (initApp.cards.map fun c => c.layer) = List.range' 1 52 := by
      decide
    rw [this]
    exact List.nodup_range' 1 52
  · decide

/-- Every reachable application state satisfies the layering invariant. -/
theorem reachable_layerInv (s : AppState) (h : Reachable s) : LayerInv s := by
  induction h with
  | refl => exact layerInv_init
  | tail _ hstep ih =>
    cases hstep with
    | grab m i => exact layerInv_grab m i _ ih
    | shuffle zs =>
      rename_i hperm hrun
      exact layerInv_shuffle zs _ _ hperm hrun ih

/-- C6: at every reachable state (after initialization, any sequence of
grabs and any number of shuffles) no two distinct cards hold the same
layer id. -/
theorem C6_unique_layers (s : AppState) (h : Reachable s) (i j : Nat)
    (hi : i < s.cards.length) (hj : j < s.cards.length) (hij : i ≠ j) :
    (s.cards.get ⟨i, hi⟩).layer ≠ (s.cards.get ⟨j, hj⟩).layer := by
  intro heq
  have hnd := (reachable_layerInv s h).1
  have hi' : i < (s.cards.map fun c => c.layer).length := by
    simpa using hi
  have hj' : j < (s.cards.map fun c => c.layer).length := by
    simpa using hj
  have hget : (s.cards.map fun c => c.layer).get ⟨i, hi'⟩ =
      (s.cards.map fun c => c.layer).get ⟨j, hj'⟩ := by
    simpa [List.get_eq_getElem, List.getElem_map] using heq
  have := (hnd.get_inj_iff.mp hget)
  exact hij (by simpa using congrArg Fin.val this)

/-- Witness for C6 at the initial state and cards 0 and 1. -/
theorem C6_witness :
    (initApp.cards.get ⟨0, by decide⟩).layer ≠
      (initApp.cards.get ⟨1, by decide⟩).layer :=
  C6_unique_layers initApp Relation.ReflTransGen.refl 0 1 (by decide)
    (by decide) (by decide)

/-- C3: grabbing any card of a reachable state sets `fresh_deck = False`,
assigns the grabbed card the layer id `k + 1` where `k` is the current
number of published layers, extends the published layer set to size
`k + 1`, and the new id is strictly greater than every card's current
layer id (hence, since grabs keep growing `k` and a shuffle resets it,
strictly greater than every id assigned since the last shuffle). -/
theorem C3_grab_rises_to_top (s : AppState) (m : Offset) (i : Nat)
    (hreach : Reachable s) (hi : i < (grabCard m i s).cards.length) :
    (grabCard m i s).fresh_deck = false ∧
    (grabCard m i s).screenLayers.length = s.screenLayers.length + 1 ∧
    ((grabCard m i s).cards.get ⟨i, hi⟩).layer =
      s.screenLayers.length + 1 ∧
    ∀ c ∈ s.cards, c.layer < ((grabCard m i s).cards.get ⟨i, hi⟩).layer := by
  have hlen : (grabCard m i s).cards.length = s.cards.length := by
    simp [grabCard, length_updateAt]
  have hi0 : i < s.cards.length := by omega
  have hget := updateAt_get_eq
    (fun c => { on_mouse_down m c with layer := s.screenLayers.length + 1 })
    i s.cards hi0 (by rw [length_updateAt]; exact hi0)
  have hgl : ((grabCard m i s).cards.get ⟨i, hi⟩).layer =
      s.screenLayers.length + 1 := by
    simp only [grabCard]
    rw [hget]
  refine ⟨rfl, by simp [grabCard], hgl, ?_⟩
  intro c hc
  rw [hgl]
  have hbound := (reachable_layerInv s hreach).2.1
  exact Nat.lt_succ_of_le (hbound c hc)

/-- Witness for C3: grabbing card 0 of the initial app. -/
theorem C3_witness :
    (grabCard origin 0 initApp).fresh_deck = false ∧
    (grabCard origin 0 initApp).screenLayers.length =
      initApp.screenLayers.length + 1 ∧
    ((grabCard origin 0 initApp).cards.get ⟨0, by decide⟩).layer =
      initApp.screenLayers.length + 1 ∧
    ∀ c ∈ initApp.cards,
      c.layer < ((grabCard origin 0 initApp).cards.get ⟨0, by decide⟩).layer :=
  C3_grab_rises_to_top initApp origin 0 Relation.ReflTransGen.refl (by decide)

/-- An observable effect of `action_shuffle`, in program order:
`animateToOrigin i` is the request `card.styles.animate("offset",
value=(0, 0), duration=0.2)` that `_return_cards_to_deck` issues for the
card at deck index `i`; `awaitAnimations` is the resolution of
`await self.animator.wait_until_complete()` (all issued animation requests
have completed); `assignLayer i l` is the reassignment
`card.styles.layer = "z-index-l"` for the card at deck index `i` in the
shuffle's `for` loop. -/
inductive Effect where
  | animateToOrigin (cardIdx : Nat)
  | awaitAnimations
  | assignLayer (cardIdx : Nat) (layer : Nat)
deriving DecidableEq, Repr

/-- The layer-assignment effects of the shuffle's `for card in self.cards`
loop, popping the pool from the end, starting at deck index `i`. -/
def assignTrace : Nat → List CardState → List Nat → List Effect
  | _, [], _ => []
  | i, _ :: rest, zs =>
    match zs.getLast? with
    | none => []
    | some z => Effect.assignLayer i z :: assignTrace (i + 1) rest zs.dropLast

/-- The effect trace of `action_shuffle`: when the deck is not fresh,
first one animation request per card (in deck order, from
`_return_cards_to_deck`) followed by the awaited completion of them all;
then the layer reassignments of the `for` loop. -/
def shuffleTrace (zs : List Nat) (s : AppState) : List Effect :=
  (if s.fresh_deck then []
   else ((List.range s.cards.length).map Effect.animateToOrigin) ++
     [Effect.awaitAnimations]) ++
  assignTrace 0 s.cards zs

/-- C4: invoking shuffle with `fresh_deck = False` issues a
return-to-origin animation request for every card whose offset differs
from the origin (indeed for every card), and no card's layer id is
reassigned before the awaited completion of all those requests: the trace
splits around `awaitAnimations` with all animation requests before it and
no `assignLayer` effect before it. -/
theorem C4_awaits_before_relayer (zs : List Nat) (s : AppState)
    (h : s.fresh_deck = false) :
    ∃ pre post,
      shuffleTrace zs s = pre ++ Effect.awaitAnimations :: post ∧
      (∀ i (hi : i < s.cards.length),
        (s.cards.get ⟨i, hi⟩).offset ≠ origin →
          Effect.animateToOrigin i ∈ pre) ∧
      (∀ i l, Effect.assignLayer i l ∉ pre) := by
  refine ⟨(List.range s.cards.length).map Effect.animateToOrigin,
    assignTrace 0 s.cards zs, ?_, ?_, ?_⟩
  · simp [shuffleTrace, h]
  · intro i hi _
    exact List.mem_map_of_mem _ (List.mem_range.mpr hi)
  · intro i l hmem
    obtain ⟨j, -, hj⟩ := List.mem_map.mp hmem
    exact Effect.noConfusion hj

/-- A one-card app with a displaced card and a stale (`fresh_deck = False`)
deck, used to witness C4. -/
def displacedApp : AppState :=
  { cards := [{ mkCard .clubs .deuce with offset := ⟨3, 4⟩, layer := 1 }]
    screenLayers := List.range' 1 52
    fresh_deck := false }

/-- Witness for C4 at the displaced one-card app. -/
theorem C4_witness :
    ∃ pre post,
      shuffleTrace (List.range' 1 52) displacedApp =
        pre ++ Effect.awaitAnimations :: post ∧
      (∀ i (hi : i < displacedApp.cards.length),
        (displacedApp.cards.get ⟨i, hi⟩).offset ≠ origin →
          Effect.animateToOrigin i ∈ pre) ∧
      (∀ i l, Effect.assignLayer i l ∉ pre) :=
  C4_awaits_before_relayer (List.range' 1 52) displacedApp rfl

end DeckOfCards
